import Mathlib

/-!
Shallow embedding of the AequilibraE mapmatcher core
(`mapmatcher/network.py`, `mapmatcher/trip.py`, `mapmatcher/linebearing.py`,
`mapmatcher/utils/check_if_aligned.py`) together with proofs settling the
frozen specification claims.

Machine floats are modelled by exact rationals (control-flow comparisons) and
real numbers (trigonometry); pandas columns are modelled by Lean lists in
dataframe row order.
-/

namespace Mapmatcher

/-! ## Network adapter (`mapmatcher/network.py`)

`Network.__init__` captures `__graph_cost = np.array(graph.cost, copy=True)`.
`discount_graph` multiplies the `distance` column of the graph table on the
selected links and then rebinds `graph.cost` to that column via `to_numpy()`,
which for a numeric pandas column is a view of the column buffer: afterwards
the cost vector read by the shortest-path engine aliases the `distance`
column.  `reset_graph` writes the baseline back into the `distance` column in
place (`graph.graph.loc[:, "distance"] = self.__graph_cost`), which the
aliased cost vector observes.  The state records the aliasing explicitly. -/

structure Net where
  /-- `self.__graph_cost`: baseline cost vector copied at construction. -/
  baseline : List ℚ
  /-- `graph.graph.link_id` column. -/
  linkIds : List ℤ
  /-- `graph.graph.distance` column. -/
  distance : List ℚ
  /-- whether `graph.cost` currently aliases the `distance` column buffer
  (true after any `discount_graph` call rebinds it via `to_numpy()`). -/
  costIsView : Bool
  /-- the buffer behind `graph.cost` when it is not a view of `distance`. -/
  costBuf : List ℚ
  deriving Repr, DecidableEq

/-- The routing cost vector the shortest-path engine reads (`graph.cost`). -/
def Net.cost (n : Net) : List ℚ :=
  if n.costIsView then n.distance else n.costBuf

/-- `Network.__init__`: the baseline is a physical copy of the incoming
`graph.cost`; the engine cost vector starts out as that incoming buffer. -/
def Net.init (cost0 : List ℚ) (ids : List ℤ) (dist0 : List ℚ) : Net :=
  { baseline := cost0, linkIds := ids, distance := dist0,
    costIsView := false, costBuf := cost0 }

/-- `Network.discount_graph`: multiply the `distance` entries of the listed
links by `cost_discount`, then rebind `graph.cost` to the column. -/
def Net.discount_graph (n : Net) (links : List ℤ) (disc : ℚ) : Net :=
  let d := List.zipWith
    (fun i c => if i ∈ links then c * disc else c) n.linkIds n.distance
  { n with distance := d, costIsView := true, costBuf := d }

/-- `Network.reset_graph`: write the baseline back into the `distance`
column in place. -/
def Net.reset_graph (n : Net) : Net :=
  { n with distance := n.baseline }

/-! ## Speeding check of `Trip.__pre_process` (`trip.py` lines 263-271)

Segment traveled times come from `.dt.seconds` and are therefore non-negative
integers; segment speeds are arbitrary rationals.  The code first computes
`w = int(total time over segments with speed > max_speed)` and only when
`w > max_speed_time` computes `groupby(speed > max_speed)[time].cumsum()` and
compares its maximum against `max_speed_time` again before appending the
"Max speed surpassed" error. -/

/-- A trace segment: (`trace_segment_speed`, `trace_segment_traveled_time`). -/
abbrev Seg : Type := ℚ × ℕ

/-- `dqp.max_speed` default: 36.1 m/s. -/
def maxSpeed : ℚ := 361 / 10

/-- `dqp.max_speed_time` default: 120 s. -/
def maxSpeedTime : ℕ := 120

/-- `w`: total traveled time over segments with `speed > max_speed`. -/
def speedingTime (segs : List Seg) : ℕ :=
  (segs.filter (fun p => maxSpeed < p.1)).foldr (fun p acc => p.2 + acc) 0

/-- `groupby(speed > max_speed)[time].cumsum()`: per-row cumulative sum of
traveled time within each of the two boolean groups, in row order.  `aT` and
`aF` are the running totals of the speeding and non-speeding groups. -/
def groupCumsum : List Seg → ℕ → ℕ → List ℕ
  | [], _, _ => []
  | (s, t) :: rest, aT, aF =>
    if maxSpeed < s then (aT + t) :: groupCumsum rest (aT + t) aF
    else (aF + t) :: groupCumsum rest aT (aF + t)

/-- Lines 264-271 of `trip.py`: whether the "Max speed surpassed" error is
appended to the error list for this trace. -/
def speedingFlag (segs : List Seg) : Bool :=
  let w := speedingTime segs
  if maxSpeedTime < w then
    decide (maxSpeedTime < (groupCumsum segs 0 0).foldr max 0)
  else false

/-- The running speeding total is always attained (or exceeded) by some entry
of the grouped cumulative sums, unless no speeding time was accumulated. -/
theorem groupCumsum_reaches (segs : List Seg) :
    ∀ aT aF : ℕ, (∃ x ∈ groupCumsum segs aT aF, aT + speedingTime segs ≤ x)
      ∨ speedingTime segs = 0 := by
  induction segs with
  | nil => intro aT aF; right; rfl
  | cons p rest ih =>
    intro aT aF
    obtain ⟨s, t⟩ := p
    by_cases hs : maxSpeed < s
    · left
      rcases ih (aT + t) aF with ⟨x, hx, hle⟩ | hz
      · refine ⟨x, ?_, ?_⟩
        · simp [groupCumsum, hs]
          right; exact hx
        · calc aT + speedingTime ((s, t) :: rest)
              = aT + t + speedingTime rest := by
                simp [speedingTime, List.filter, hs]; ring
            _ ≤ x := hle
      · refine ⟨aT + t, ?_, ?_⟩
        · simp [groupCumsum, hs]
        · have : speedingTime ((s, t) :: rest) = t + speedingTime rest := by
            simp [speedingTime, List.filter, hs]
          omega
    · rcases ih aT (aF + t) with ⟨x, hx, hle⟩ | hz
      · left
        refine ⟨x, ?_, ?_⟩
        · simp [groupCumsum, hs]
          right; exact hx
        · have : speedingTime ((s, t) :: rest) = speedingTime rest := by
            simp [speedingTime, List.filter, hs]
          omega
      · right
        have : speedingTime ((s, t) :: rest) = speedingTime rest := by
          simp [speedingTime, List.filter, hs]
        omega

/-- Any member of a list of naturals is at most its `foldr max 0`. -/
theorem le_foldr_max {x : ℕ} {l : List ℕ} (hx : x ∈ l) :
    x ≤ l.foldr max 0 := by
  induction l with
  | nil => cases hx
  | cons a l ih =>
    rcases List.mem_cons.mp hx with h | h
    · subst h; exact le_max_left _ _
    · exact le_trans (ih h) (le_max_right _ _)

/-- The inner "continuous speeding" re-check is implied by the outer guard:
whenever the total speeding time exceeds the budget, the grouped cumulative
sums also exceed it. -/
theorem speedingFlag_eq (segs : List Seg) :
    speedingFlag segs = decide (maxSpeedTime < speedingTime segs) := by
  by_cases hw : maxSpeedTime < speedingTime segs
  · have hmax : maxSpeedTime < (groupCumsum segs 0 0).foldr max 0 := by
      rcases groupCumsum_reaches segs 0 0 with ⟨x, hx, hle⟩ | hz
      · have : speedingTime segs ≤ x := by omega
        exact lt_of_lt_of_le hw (le_trans this (le_foldr_max hx))
      · omega
    simp [speedingFlag, hw, hmax]
  · simp [speedingFlag, hw]

/-- Composing two entrywise `zipWith` updates keyed by the same id list. -/
theorem zipWith_zipWith_ids (f g : ℤ → ℚ → ℚ) :
    ∀ (ids : List ℤ) (l : List ℚ),
      List.zipWith f ids (List.zipWith g ids l)
        = List.zipWith (fun i c => f i (g i c)) ids l := by
  intro ids
  induction ids with
  | nil => intro l; rfl
  | cons i ids ih =>
    intro l
    cases l with
    | nil => rfl
    | cons c l => simp [List.zipWith, ih]

/-- C2: for every network state, every link set and every discount factor,
`discount_graph` followed by `reset_graph` leaves the cost vector read by
the shortest-path engine exactly equal to the baseline captured at
construction. -/
theorem claim_C2_discount_reset_restores_baseline
    (n : Net) (links : List ℤ) (disc : ℚ) :
    ((n.discount_graph links disc).reset_graph).cost = n.baseline := by
  simp [Net.discount_graph, Net.reset_graph, Net.cost]

/-- C6 (amended): `discount_graph` is cumulative rather than idempotent:
applying it twice with the same links compounds the discount, producing the
engine cost vector of a single call made with the squared discount factor. -/
theorem claim_C6_discount_graph_cumulative
    (n : Net) (links : List ℤ) (disc : ℚ) :
    ((n.discount_graph links disc).discount_graph links disc).cost
      = (n.discount_graph links (disc * disc)).cost := by
  simp only [Net.discount_graph, Net.cost, if_pos rfl]
  rw [zipWith_zipWith_ids]
  have hfun : (fun (i : ℤ) (c : ℚ) =>
        if i ∈ links then (if i ∈ links then c * disc else c) * disc
        else if i ∈ links then c * disc else c)
      = fun (i : ℤ) (c : ℚ) => if i ∈ links then c * (disc * disc) else c := by
    funext i c
    by_cases h : i ∈ links <;> simp [h] <;> ring
  rw [hfun]

/-! ## Alignment predicate (`mapmatcher/utils/check_if_aligned.py`)

One row of `check_lines_aligned`: `abs_diff = |net_link_az - tangent_bearing|`,
`reverse_diff = (max - min + tolerance) % 360`, and `aligned` is set by three
sequential comparisons. -/

/-- numpy/pandas `%` on rationals: result in `[0, m)` for `m > 0`. -/
def qmod (x m : ℚ) : ℚ := x - m * ⌊x / m⌋

/-- One row of `check_lines_aligned` (`check_if_aligned.py` lines 4-23). -/
def check_lines_aligned (az tb tol : ℚ) : Bool :=
  let abs_diff := |az - tb|
  let reverse_diff := qmod (max az tb - min az tb + tol) 360
  decide (abs_diff ≤ tol)
    || (decide (180 - tol ≤ abs_diff) && decide (abs_diff ≤ 180 + tol))
    || decide (reverse_diff ≤ tol)

/-- The claimed specification of alignment:
direct match, reverse match, or circular complement within tolerance. -/
def alignedSpec (az tb tol : ℚ) : Prop :=
  |az - tb| ≤ tol ∨ (180 - tol ≤ |az - tb| ∧ |az - tb| ≤ 180 + tol)
    ∨ 360 - |az - tb| ≤ tol

instance (az tb tol : ℚ) : Decidable (alignedSpec az tb tol) := by
  unfold alignedSpec; infer_instance

/-- `qmod` on `[0, 360)` shifted once: closed form for arguments in
`[0, 720)`. -/
theorem qmod_360_of_lt (x : ℚ) (h0 : 0 ≤ x) (h1 : x < 720) :
    qmod x 360 = if x < 360 then x else x - 360 := by
  unfold qmod
  by_cases hx : x < 360
  · have : ⌊x / 360⌋ = 0 := by
      rw [Int.floor_eq_zero_iff]
      constructor
      · positivity
      · rw [div_lt_one (by norm_num)]; simpa using hx
    simp [this, hx]
  · have hfl : ⌊x / 360⌋ = 1 := by
      have hge : (1 : ℚ) ≤ x / 360 := by
        rw [le_div_iff₀ (by norm_num)]; push_neg at hx; simpa using hx
      have hlt : x / 360 < 2 := by
        rw [div_lt_iff₀ (by norm_num)]; linarith
      rw [Int.floor_eq_iff]
      constructor
      · simpa using hge
      · push_cast; linarith
    simp only [hfl, if_neg hx]
    push_cast
    ring

/-- For bearings in `[0, 360)` and a tolerance in `[0, 360)`, the row
computation of `check_lines_aligned` agrees with the three-disjunct
alignment specification. -/
theorem check_lines_aligned_iff (az tb tol : ℚ)
    (haz0 : 0 ≤ az) (haz1 : az < 360) (htb0 : 0 ≤ tb) (htb1 : tb < 360)
    (htol0 : 0 ≤ tol) (htol1 : tol < 360) :
    check_lines_aligned az tb tol = true ↔ alignedSpec az tb tol := by
  have hmm : max az tb - min az tb = |az - tb| := by
    rw [max_sub_min_eq_abs az tb, abs_sub_comm]
  set d := |az - tb| with hd
  have hd0 : 0 ≤ d := abs_nonneg _
  have hd1 : d < 360 := by
    rw [hd, abs_sub_lt_iff]; constructor <;> linarith
  have hrd : qmod (max az tb - min az tb + tol) 360
      = if d + tol < 360 then d + tol else d + tol - 360 := by
    rw [hmm, qmod_360_of_lt (d + tol) (by linarith) (by linarith)]
  unfold check_lines_aligned alignedSpec
  rw [← hd, hrd]
  by_cases hc : d + tol < 360
  · rw [if_pos hc]
    constructor
    · intro h
      rcases Bool.or_eq_true_iff.mp h with h | h
      · rcases Bool.or_eq_true_iff.mp h with h | h
        · left; exact of_decide_eq_true h
        · right; left
          rcases Bool.and_eq_true_iff.mp h with ⟨h1, h2⟩
          exact ⟨of_decide_eq_true h1, of_decide_eq_true h2⟩
      · left
        have := of_decide_eq_true h
        linarith
    · intro h
      rcases h with h | ⟨h1, h2⟩ | h
      · apply Bool.or_eq_true_iff.mpr; left
        apply Bool.or_eq_true_iff.mpr; left
        exact decide_eq_true h
      · apply Bool.or_eq_true_iff.mpr; left
        apply Bool.or_eq_true_iff.mpr; right
        exact Bool.and_eq_true_iff.mpr ⟨decide_eq_true h1, decide_eq_true h2⟩
      · exact absurd h (by push_neg; linarith)
  · rw [if_neg hc]
    push_neg at hc
    constructor
    · intro _
      right; right; linarith
    · intro _
      apply Bool.or_eq_true_iff.mpr; right
      apply decide_eq_true; linarith

/-- The absolute bearing difference produced by a circular offset `diff`:
it equals `diff` or its circular complement `360 - diff`. -/
theorem abs_diff_of_offset (b diff : ℕ) (hb : b < 360) (hdiff : diff < 360) :
    |((b : ℚ)) - (((b + diff) % 360 : ℕ) : ℚ)| = diff
      ∨ |((b : ℚ)) - (((b + diff) % 360 : ℕ) : ℚ)| = 360 - diff := by
  by_cases hc : b + diff < 360
  · left
    rw [Nat.mod_eq_of_lt hc]
    push_cast
    rw [abs_sub_comm]
    rw [abs_of_nonneg (by push_cast; linarith [Nat.cast_nonneg (α := ℚ) diff])]
    ring
  · right
    push_neg at hc
    have hm : (b + diff) % 360 = b + diff - 360 := by
      rw [Nat.mod_eq_sub_mod hc, Nat.mod_eq_of_lt (by omega)]
    rw [hm]
    have hcast : (((b + diff - 360 : ℕ)) : ℚ) = (b : ℚ) + diff - 360 := by
      have : ((360 : ℕ) : ℚ) ≤ ((b + diff : ℕ) : ℚ) := by
        exact_mod_cast hc
      push_cast [Nat.cast_sub hc]
      ring
    rw [hcast]
    have hnn : (0 : ℚ) ≤ 360 - (diff : ℚ) := by
      have : ((diff : ℕ) : ℚ) ≤ 360 := by exact_mod_cast hdiff.le
      linarith
    rw [show (b : ℚ) - ((b : ℚ) + diff - 360) = 360 - diff by ring,
      abs_of_nonneg hnn]

/-- C5: the alignment predicate returns aligned iff the bearing difference is
within tolerance, within tolerance of 180, or within tolerance of the
circular complement; consequently, for every integer link bearing in
`[0, 360)` with tolerance 22.5 it rejects offsets 50, 130, 240, 310 and
accepts every integer offset in `[1, 22]` and `[158, 202]`. -/
theorem claim_C5_alignment_predicate :
    (∀ az tb tol : ℚ, 0 ≤ az → az < 360 → 0 ≤ tb → tb < 360 →
      0 ≤ tol → tol < 360 →
      (check_lines_aligned az tb tol = true ↔ alignedSpec az tb tol)) ∧
    (∀ b diff : ℕ, b < 360 →
      ((diff = 50 ∨ diff = 130 ∨ diff = 240 ∨ diff = 310) →
        check_lines_aligned b (((b + diff) % 360 : ℕ)) (45 / 2) = false) ∧
      ((1 ≤ diff ∧ diff ≤ 22) ∨ (158 ≤ diff ∧ diff ≤ 202) →
        check_lines_aligned b (((b + diff) % 360 : ℕ)) (45 / 2) = true)) := by
  constructor
  · exact check_lines_aligned_iff
  · intro b diff hb
    have hb0 : (0 : ℚ) ≤ b := Nat.cast_nonneg b
    have hb1 : (b : ℚ) < 360 := by exact_mod_cast hb
    have htb0 : (0 : ℚ) ≤ (((b + diff) % 360 : ℕ) : ℚ) := Nat.cast_nonneg _
    have htb1 : (((b + diff) % 360 : ℕ) : ℚ) < 360 := by
      exact_mod_cast Nat.mod_lt (b + diff) (by norm_num)
    have hiff := check_lines_aligned_iff b (((b + diff) % 360 : ℕ)) (45 / 2)
      hb0 hb1 htb0 htb1 (by norm_num) (by norm_num)
    constructor
    · intro hmem
      have hdiff : diff < 360 := by rcases hmem with h | h | h | h <;> omega
      have habs := abs_diff_of_offset b diff hb hdiff
      rw [← Bool.not_eq_true]
      intro htrue
      have hspec := hiff.mp htrue
      unfold alignedSpec at hspec
      have hdq : ((diff : ℚ) = 50 ∨ (diff : ℚ) = 130 ∨ (diff : ℚ) = 240
          ∨ (diff : ℚ) = 310) := by
        rcases hmem with h | h | h | h <;> subst h <;> norm_num
      rcases habs with habs | habs <;> rw [habs] at hspec <;>
        rcases hdq with h | h | h | h <;> rw [h] at hspec <;>
        rcases hspec with h1 | ⟨h1, h2⟩ | h1 <;> linarith
    · intro hmem
      have hdiff : diff < 360 := by rcases hmem with ⟨h1, h2⟩ | ⟨h1, h2⟩ <;> omega
      have habs := abs_diff_of_offset b diff hb hdiff
      apply hiff.mpr
      unfold alignedSpec
      rcases hmem with ⟨h1, h2⟩ | ⟨h1, h2⟩
      · have hq1 : (1 : ℚ) ≤ diff := by exact_mod_cast h1
        have hq2 : (diff : ℚ) ≤ 22 := by exact_mod_cast h2
        rcases habs with habs | habs <;> rw [habs]
        · left; linarith
        · right; right; linarith
      · have hq1 : (158 : ℚ) ≤ diff := by exact_mod_cast h1
        have hq2 : (diff : ℚ) ≤ 202 := by exact_mod_cast h2
        rcases habs with habs | habs <;> rw [habs]
        · right; left; constructor <;> linarith
        · right; left; constructor <;> linarith

/-- Witness for C5 at a concrete input: link bearing 340 with offset 200
(reverse alignment) is aligned under tolerance 22.5, while offset 50 from
the same bearing is rejected. -/
theorem claim_C5_alignment_predicate_witness :
    check_lines_aligned 340 (((340 + 200) % 360 : ℕ)) (45 / 2) = true
      ∧ check_lines_aligned 340 (((340 + 50) % 360 : ℕ)) (45 / 2) = false := by
  constructor
  · exact ((claim_C5_alignment_predicate.2 340 200 (by norm_num)).2
      (Or.inr ⟨by norm_num, by norm_num⟩))
  · exact ((claim_C5_alignment_predicate.2 340 50 (by norm_num)).1
      (Or.inl rfl))

/-- C6 (counterexample): on a one-link network with baseline cost 1 and the
default discount 0.1, a second `discount_graph` call with the same argument
changes the engine cost vector again (0.1 becomes 0.01), so the operation is
not idempotent. -/
theorem claim_C6_counterexample :
    (((Net.init [1] [1] [1]).discount_graph [1] (1 / 10)).discount_graph
        [1] (1 / 10)).cost
      ≠ ((Net.init [1] [1] [1]).discount_graph [1] (1 / 10)).cost := by
  simp [Net.init, Net.discount_graph, Net.cost]

/-- C7: the "Max speed surpassed" data-quality error is recorded if and only
if the cumulative traveled time over segments whose speed exceeds
`max_speed` (36.1 m/s) is greater than `max_speed_time` (120 s): the inner
`groupby` cumulative-sum re-check never overturns the outer total-time
guard, because segment times from `.dt.seconds` are non-negative integers.
-/
theorem claim_C7_speeding_error_iff (segs : List Seg) :
    speedingFlag segs = true ↔ maxSpeedTime < speedingTime segs := by
  rw [speedingFlag_eq]
  exact decide_eq_true_iff

/-! ## Waypoint table and `Trip.__add_waypoint` (`trip.py` lines 343-366)

A row of `self._waypoints` with the columns the matching loop reads.
`is_waypoint` states: 0 ordinary, 1 endpoint or retained trial, 2 current
trial, -1 revoked trial.  Rows are kept in dataframe order, which is
ascending `ping_id` order for a conditioned trace. -/

structure WRow where
  ping_id : ℕ
  timestamp : ℤ
  stop_node : ℕ
  is_waypoint : ℤ
  ping_is_covered : Bool
  deriving Repr, DecidableEq, Inhabited

/-- `stop_nodes` of the existing waypoints (`is_waypoint == 1`). -/
def stopNodesOf (wp : List WRow) : List ℕ :=
  (wp.filter (fun r => decide (r.is_waypoint = 1))).map (fun r => r.stop_node)

/-- `df`: the uncovered ordinary pings
(`~ping_is_covered` and `is_waypoint == 0`). -/
def uncovDf (wp : List WRow) : List WRow :=
  wp.filter (fun r => !r.ping_is_covered && decide (r.is_waypoint = 0))

/-- Split a ping-ordered list into maximal runs of consecutive `ping_id`,
mirroring the `is_start` / `is_end` shift comparisons. -/
def chains : List WRow → List (List WRow)
  | [] => []
  | r :: rest =>
    match chains rest with
    | (r2 :: c) :: cs =>
      if r2.ping_id = r.ping_id + 1 then (r :: r2 :: c) :: cs
      else [r] :: (r2 :: c) :: cs
    | cs => [r] :: cs

/-- `(frm, end, missed_time)` of one run: first and last ping id and the
elapsed time `end.timestamp - start.timestamp`. -/
def runBounds (c : List WRow) : Option (ℕ × ℕ × ℤ) :=
  match c.head?, c.getLast? with
  | some r0, some rl => some (r0.ping_id, rl.ping_id, rl.timestamp - r0.timestamp)
  | _, _ => none

/-- Insert a run into a list sorted by descending elapsed time (third
component), ties keeping earlier runs first. -/
def insertDesc (x : ℕ × ℕ × ℤ) : List (ℕ × ℕ × ℤ) → List (ℕ × ℕ × ℤ)
  | [] => [x]
  | y :: ys => if y.2.2 < x.2.2 then x :: y :: ys else y :: insertDesc x ys

/-- Runs ordered by descending elapsed time
(`np.argsort(missed_time)[-i]` walked from the largest down). -/
def sortDesc : List (ℕ × ℕ × ℤ) → List (ℕ × ℕ × ℤ)
  | [] => []
  | x :: xs => insertDesc x (sortDesc xs)

/-- Candidate rows of one run: `ping_id` in `[frm, fin]` and `stop_node`
not among the existing waypoint stop nodes. -/
def candsOf (wp : List WRow) (stopN : List ℕ) (frm fin : ℕ) : List WRow :=
  wp.filter (fun r => decide (frm ≤ r.ping_id) && decide (r.ping_id ≤ fin)
    && !(stopN.contains r.stop_node))

/-- `np.argmax(np.bincount(l))`: the most frequent value, smallest value
winning ties (argmax returns the first maximal bin). -/
def bincountArgmax (l : List ℕ) : ℕ :=
  (List.range (l.foldr max 0 + 1)).foldl
    (fun best v => if l.count best < l.count v then v else best) 0

/-- The run loop of `__add_waypoint`: walk the runs from worst to best; in
the first run with candidates pick the earliest ping mapping to the most
frequent candidate stop node; break if that ping is still ordinary,
otherwise remember it and try the next run.  Returns the `ping_id`
variable of the source (0 when never assigned). -/
def tryRuns (wp : List WRow) (stopN : List ℕ) :
    List (ℕ × ℕ × ℤ) → ℕ → ℕ
  | [], acc => acc
  | (frm, fin, _) :: rest, acc =>
    let cands := candsOf wp stopN frm fin
    if cands.isEmpty then tryRuns wp stopN rest acc
    else
      let node := bincountArgmax (cands.map (fun r => r.stop_node))
      let pid := ((cands.filter
        (fun r => decide (r.stop_node = node))).headD default).ping_id
      if ((wp.filter
          (fun r => decide (r.ping_id = pid))).headD default).is_waypoint = 0
      then pid
      else tryRuns wp stopN rest pid

/-- `Trip.__add_waypoint`: mark the selected ping (if any) as the trial
waypoint (`is_waypoint = 2`). -/
def add_waypoint (wp : List WRow) : List WRow :=
  let stopN := stopNodesOf wp
  let runs := sortDesc ((chains (uncovDf wp)).filterMap runBounds)
  let pid := tryRuns wp stopN runs 0
  wp.map (fun r => if r.ping_id = pid then { r with is_waypoint := 2 } else r)

/-! ## Match driver (`trip.py` lines 81-152, 368-375)

`__mm_results` is a triple of link, direction and milepost columns; the
shortest-path engine and the geometric coverage test are external services,
modelled as oracles.  A path oracle answer `Except.error ()` models an
exception escaping the routing call; `Except.ok none` models an infeasible
pair (`res.path is None`). -/

structure Leg where
  links : List ℤ
  dirs : List ℤ
  mileposts : List ℚ
  deriving Repr, DecidableEq, Inhabited

/-- `res.compute_path(start, end, early_exit=True)` followed by the reads of
`res.path`, `res.path_link_directions` and `res.milepost`. -/
abbrev PathOracle : Type := ℕ → ℕ → Except Unit (Option (List ℤ × List ℤ × List ℚ))

/-- Row-wise `self._waypoints.intersects(self.path_shape.buffer(buffer))`. -/
abbrev CovOracle : Type := Leg → WRow → Bool

/-- State of a `Trip` as read and written by `map_match`. -/
structure TripState where
  waypoints : List WRow
  results : Leg
  map_matched : ℕ
  errs : List String
  mq_cache : ℚ
  deriving Repr, DecidableEq

/-- `Trip.has_error`. -/
def hasError (s : TripState) : Bool := decide (0 < s.errs.length)

/-- `min(1.0, ping_is_covered.sum() / shape[0])` over the waypoint table. -/
def matchQualityValue (wp : List WRow) : ℚ :=
  min 1 (((wp.countP (fun r => r.ping_is_covered)) : ℚ) / (wp.length : ℚ))

/-- The `match_quality` property: on a cold cache, recompute the coverage
flags from the current path shape and cache `min(1, covered / total)`. -/
def computeQuality (cov : CovOracle) (s : TripState) : ℚ × TripState :=
  if s.mq_cache < 0 then
    let wp := s.waypoints.map
      (fun r => { r with ping_is_covered := cov s.results r })
    let q := matchQualityValue wp
    (q, { s with waypoints := wp, mq_cache := q })
  else (s.mq_cache, s)

/-- `Trip.__reset`: invalidate the cached match quality. -/
def resetTrip (s : TripState) : TripState := { s with mq_cache := -1 }

/-- `wpnts`: stop nodes of the active waypoints (`is_waypoint > 0`). -/
def activeStops (wp : List WRow) : List ℕ :=
  (wp.filter (fun r => decide (0 < r.is_waypoint))).map (fun r => r.stop_node)

/-- Consecutive waypoint pairs `zip(wpnts[:-1], wpnts[1:])`. -/
def consecPairs (l : List ℕ) : List (ℕ × ℕ) := l.zip l.tail

/-- The leg-stitching loop: equal endpoints are skipped, infeasible pairs
are skipped, and each successful leg appends its links and directions and
its mileposts shifted by the running `pos` offset, which is then moved to
the last accumulated milepost. -/
def legsLoop (po : PathOracle) :
    List (ℕ × ℕ) → Leg → ℚ → Except Unit (Leg × ℚ)
  | [], acc, pos => .ok (acc, pos)
  | (a, b) :: rest, acc, pos =>
    if a = b then legsLoop po rest acc pos
    else
      match po a b with
      | .error e => .error e
      | .ok none => legsLoop po rest acc pos
      | .ok (some (ls, ds, ms)) =>
        let acc2 : Leg := ⟨acc.links ++ ls, acc.dirs ++ ds,
          acc.mileposts ++ ms.tail.map (fun m => m + pos)⟩
        legsLoop po rest acc2 (acc2.mileposts.getLastD pos)

/-- Lines 134-136: the trial waypoint is demoted to -1 when the quality `q`
of this attempt equals the quality `curr` of the previous one, and is
retained as 1 otherwise. -/
def trialResolve (curr q : ℚ) (wp : List WRow) : List WRow :=
  let corr : ℤ := if curr = q then -1 else 1
  wp.map (fun r =>
    if r.is_waypoint = 2 then { r with is_waypoint := corr } else r)

/-- Outcome of one iteration of the matching loop. -/
inductive StepOut : Type
  | brk (s : TripState)
  | next (pos curr : ℚ) (s : TripState)
  | exc (s : TripState)
  deriving Repr

/-- One iteration of the `for waypoint_count` loop of `Trip.__map_match`:
stitch legs between active waypoints, evaluate quality, break on success,
otherwise resolve the trial waypoint, reset and add a new trial waypoint. -/
def mmStep (po : PathOracle) (cov : CovOracle) (minq : ℚ)
    (pos curr : ℚ) (s : TripState) : StepOut :=
  match legsLoop po (consecPairs (activeStops s.waypoints)) ⟨[], [], []⟩ pos with
  | .error _ => .exc s
  | .ok (leg, pos2) =>
    let s1 := { s with results := leg }
    let p := computeQuality cov s1
    if minq ≤ p.1 then .brk (resetTrip p.2)
    else
      let s3 := { p.2 with waypoints := trialResolve curr p.1 p.2.waypoints }
      let s4 := resetTrip s3
      .next pos2 p.1 { s4 with waypoints := add_waypoint s4.waypoints }

/-- The bounded matching loop (`range(par.maximum_waypoints + 1)`); an
`Except.error` carries the trip state live at the escaping exception. -/
def mmLoop (po : PathOracle) (cov : CovOracle) (minq : ℚ) :
    ℕ → ℚ → ℚ → TripState → Except TripState TripState
  | 0, _, _, s => .ok s
  | n + 1, pos, curr, s =>
    match mmStep po cov minq pos curr s with
    | .brk s2 => .ok s2
    | .exc s2 => .error s2
    | .next pos2 curr2 s2 => mmLoop po cov minq n pos2 curr2 s2

/-- `Trip.__map_match`: early return on an empty waypoint table; after the
loop, surviving trial waypoints get `stop_node = 1`, the success flag
`__map_matched` is set to 1, and `match_quality` is evaluated once more. -/
def mapMatchInner (po : PathOracle) (cov : CovOracle) (minq : ℚ)
    (maxw : ℕ) (s : TripState) : Except TripState TripState :=
  if s.waypoints.isEmpty then .ok s
  else
    match mmLoop po cov minq (maxw + 1) 0 0 s with
    | .error s2 => .error s2
    | .ok s2 =>
      let s3 := { s2 with waypoints := (s2.waypoints.map
        (fun (r : WRow) =>
          if r.is_waypoint = 2 then { r with stop_node := 1 } else r)) }
      let s4 := { s3 with map_matched := 1 }
      .ok (computeQuality cov s4).2

/-- The error entry written by the `except` handler of `Trip.map_match`
(`traceback.print_exc()` prints and returns `None`). -/
def criticalEntry : String := "Critical failures. None"

/-- `Trip.map_match`: skip matching when the trace has errors and
`ignore_errors` is not set; otherwise run the internal routine, and on an
exception replace the error list with the single critical entry. -/
def mapMatch (po : PathOracle) (cov : CovOracle) (minq : ℚ) (maxw : ℕ)
    (ignoreErrors : Bool) (s : TripState) : TripState :=
  if hasError s && !ignoreErrors then s
  else
    match mapMatchInner po cov minq maxw s with
    | .ok s2 => s2
    | .error s2 => { s2 with errs := [criticalEntry] }

/-- The trip state carried by a loop-step outcome. -/
def StepOut.state : StepOut → TripState
  | .brk s => s
  | .next _ _ s => s
  | .exc s => s

/-- The trip state carried by a loop result, successful or not. -/
def exState : Except TripState TripState → TripState
  | .ok s => s
  | .error s => s

/-- Recomputing the match quality touches only the coverage flags and the
cache: the success flag and the error list are untouched. -/
theorem computeQuality_fields (cov : CovOracle) (s : TripState) :
    ((computeQuality cov s).2).map_matched = s.map_matched
      ∧ ((computeQuality cov s).2).errs = s.errs := by
  unfold computeQuality
  by_cases h : s.mq_cache < 0 <;> simp [h]

/-- A single loop iteration never writes the success flag or the error
list, whichever way it exits. -/
theorem mmStep_fields (po : PathOracle) (cov : CovOracle) (minq pos curr : ℚ)
    (s : TripState) :
    ((mmStep po cov minq pos curr s).state).map_matched = s.map_matched
      ∧ ((mmStep po cov minq pos curr s).state).errs = s.errs := by
  unfold mmStep
  rcases hll : legsLoop po (consecPairs (activeStops s.waypoints)) ⟨[], [], []⟩
      pos with e | ⟨leg, pos2⟩
  · simp [StepOut.state]
  · have hq := computeQuality_fields cov { s with results := leg }
    by_cases hbrk :
        minq ≤ (computeQuality cov { s with results := leg }).1 <;>
      simp [hbrk, StepOut.state, resetTrip] <;>
      simpa using hq

/-- The bounded matching loop never writes the success flag or the error
list. -/
theorem mmLoop_fields (po : PathOracle) (cov : CovOracle) (minq : ℚ) :
    ∀ (fuel : ℕ) (pos curr : ℚ) (s : TripState),
      (exState (mmLoop po cov minq fuel pos curr s)).map_matched
          = s.map_matched
        ∧ (exState (mmLoop po cov minq fuel pos curr s)).errs = s.errs := by
  intro fuel
  induction fuel with
  | zero => intro pos curr s; exact ⟨rfl, rfl⟩
  | succ n ih =>
    intro pos curr s
    have hs := mmStep_fields po cov minq pos curr s
    unfold mmLoop
    rcases hstep : mmStep po cov minq pos curr s with s2 | ⟨pos2, curr2, s2⟩ | s2
    · rw [hstep] at hs; exact hs
    · rw [hstep] at hs
      have := ih pos2 curr2 s2
      simp only [exState]
      exact ⟨hs.1 ▸ this.1, hs.2 ▸ this.2⟩
    · rw [hstep] at hs; exact hs

/-- C10: the match-quality computation has no zero guard on its denominator,
but whenever the waypoint table is non-empty (which the early return of the
matching routine guarantees for every evaluation it triggers) the
denominator is non-zero and the quality lies in `[0, 1]`. -/
theorem claim_C10_match_quality_bounds (wp : List WRow) (h : wp ≠ []) :
    ((wp.length : ℚ)) ≠ 0 ∧ 0 ≤ matchQualityValue wp
      ∧ matchQualityValue wp ≤ 1 := by
  have hlen : 0 < wp.length := List.length_pos.mpr h
  have hlq : (0 : ℚ) < (wp.length : ℚ) := by exact_mod_cast hlen
  refine ⟨ne_of_gt hlq, ?_, ?_⟩
  · apply le_min (by norm_num)
    positivity
  · exact min_le_left _ _

/-- C10 witness: a one-row waypoint table. -/
theorem claim_C10_match_quality_bounds_witness :
    (((([(default : WRow)]).length : ℚ)) ≠ 0
        ∧ 0 ≤ matchQualityValue [default]
        ∧ matchQualityValue [default] ≤ 1) :=
  claim_C10_match_quality_bounds [default] (by simp)

/-- C1 (amended): the success flag reports whether the matching routine ran
to completion, not whether the quality threshold was reached: starting from
an unmatched trip, `__map_match` ends with `success = 1` whenever the
waypoint table is non-empty and no exception escapes — even when the
waypoint budget is exhausted below `minimum_match_quality` — and with
`success = 0` on an empty waypoint table or an escaping exception. -/
theorem claim_C1_success_reports_completion (po : PathOracle)
    (cov : CovOracle) (minq : ℚ) (maxw : ℕ) (s : TripState)
    (h0 : s.map_matched = 0) :
    (∀ s2, mapMatchInner po cov minq maxw s = .ok s2 →
        s2.map_matched = if s.waypoints.isEmpty then 0 else 1)
      ∧ (∀ s2, mapMatchInner po cov minq maxw s = .error s2 →
        s2.map_matched = 0) := by
  constructor
  · intro s2 hok
    unfold mapMatchInner at hok
    by_cases hemp : s.waypoints.isEmpty
    · rw [if_pos hemp] at hok
      injection hok with h2
      rw [← h2, if_pos hemp]; exact h0
    · rw [if_neg hemp] at hok
      rcases hml : mmLoop po cov minq (maxw + 1) 0 0 s with s3 | s3 <;>
        rw [hml] at hok
      · cases hok
      · injection hok with h2
        rw [← h2, if_neg hemp]
        exact (computeQuality_fields cov _).1
  · intro s2 herr
    unfold mapMatchInner at herr
    by_cases hemp : s.waypoints.isEmpty
    · rw [if_pos hemp] at herr; cases herr
    · rw [if_neg hemp] at herr
      rcases hml : mmLoop po cov minq (maxw + 1) 0 0 s with s3 | s3 <;>
        rw [hml] at herr
      · injection herr with h2
        have := (mmLoop_fields po cov minq (maxw + 1) 0 0 s).1
        rw [hml] at this
        simp only [exState] at this
        rw [← h2, this]; exact h0
      · cases herr

/-- C1 witness: on an empty waypoint table the routine returns the state
unchanged, so success stays 0. -/
theorem claim_C1_success_reports_completion_witness :
    ({ waypoints := [], results := ⟨[], [], []⟩, map_matched := 0,
        errs := [], mq_cache := -1 } : TripState).map_matched
      = if ([] : List WRow).isEmpty then 0 else 1 :=
  (claim_C1_success_reports_completion (fun _ _ => .ok none) (fun _ _ => false)
    (99 / 100) 20
    { waypoints := [], results := ⟨[], [], []⟩, map_matched := 0,
      errs := [], mq_cache := -1 } rfl).1 _ rfl

/-- C1 (counterexample): a two-waypoint trace whose legs are all infeasible
and whose pings are never covered exhausts the waypoint budget with
`match_quality = 0 < minimum_match_quality = 0.99`, yet `map_match` ends
with `success = 1`, not 0. -/
theorem claim_C1_counterexample :
    (mapMatch (fun _ _ => .ok none) (fun _ _ => false) (99 / 100) 0 false
        { waypoints := [⟨1, 0, 1, 1, false⟩, ⟨2, 1, 2, 1, false⟩],
          results := ⟨[], [], []⟩, map_matched := 0, errs := [],
          mq_cache := -1 }).map_matched = 1
      ∧ (mapMatch (fun _ _ => .ok none) (fun _ _ => false) (99 / 100) 0 false
        { waypoints := [⟨1, 0, 1, 1, false⟩, ⟨2, 1, 2, 1, false⟩],
          results := ⟨[], [], []⟩, map_matched := 0, errs := [],
          mq_cache := -1 }).mq_cache < 99 / 100 := by
  norm_num [mapMatch, hasError, mapMatchInner, mmLoop, mmStep, legsLoop,
    consecPairs, activeStops, computeQuality, matchQualityValue, resetTrip,
    trialResolve, add_waypoint, stopNodesOf, uncovDf, chains, runBounds,
    sortDesc, tryRuns, bincountArgmax, candsOf]

/-- An exception escaping the internal routine leaves the success flag and
error list as they were at the raise point, which the loop never writes. -/
theorem mapMatchInner_error_fields (po : PathOracle) (cov : CovOracle)
    (minq : ℚ) (maxw : ℕ) (s s2 : TripState)
    (herr : mapMatchInner po cov minq maxw s = .error s2) :
    s2.map_matched = s.map_matched ∧ s2.errs = s.errs := by
  unfold mapMatchInner at herr
  by_cases hemp : s.waypoints.isEmpty
  · rw [if_pos hemp] at herr; cases herr
  · rw [if_neg hemp] at herr
    rcases hml : mmLoop po cov minq (maxw + 1) 0 0 s with s3 | s3 <;>
      rw [hml] at herr
    · injection herr with h2
      have := mmLoop_fields po cov minq (maxw + 1) 0 0 s
      rw [hml] at this
      simp only [exState] at this
      rw [← h2]; exact this
    · cases herr

/-- C9: `map_match` returns normally on every oracle behaviour: with a
pre-existing error and `ignore_errors` unset it returns the state
unchanged (success stays 0); and when an exception escapes the internal
routine it is caught, the error list is replaced by the single critical
entry (so `has_error` is true) and success stays 0. -/
theorem claim_C9_map_match_catches (po : PathOracle) (cov : CovOracle)
    (minq : ℚ) (maxw : ℕ) (ignoreErrors : Bool) (s : TripState)
    (h0 : s.map_matched = 0) :
    (hasError s = true → ignoreErrors = false →
        mapMatch po cov minq maxw ignoreErrors s = s)
      ∧ ((hasError s = false ∨ ignoreErrors = true) →
        ∀ s2, mapMatchInner po cov minq maxw s = .error s2 →
          mapMatch po cov minq maxw ignoreErrors s
              = { s2 with errs := [criticalEntry] }
            ∧ hasError (mapMatch po cov minq maxw ignoreErrors s) = true
            ∧ (mapMatch po cov minq maxw ignoreErrors s).map_matched = 0) := by
  constructor
  · intro he hig
    unfold mapMatch
    rw [he, hig]
    rfl
  · intro hguard s2 herr
    have hcond : (hasError s && !ignoreErrors) = false := by
      rcases hguard with h | h <;> simp [h]
    have hmm : mapMatch po cov minq maxw ignoreErrors s
        = { s2 with errs := [criticalEntry] } := by
      unfold mapMatch
      rw [hcond, herr]
      rfl
    refine ⟨hmm, ?_, ?_⟩
    · rw [hmm]; rfl
    · rw [hmm]
      exact (mapMatchInner_error_fields po cov minq maxw s s2 herr).1.trans h0

/-- C9 witness: a routing call that raises on the first leg is caught; the
error list becomes the single critical entry and success stays 0. -/
theorem claim_C9_map_match_catches_witness :
    mapMatch (fun _ _ => .error ()) (fun _ _ => false) (99 / 100) 0 false
        { waypoints := [⟨1, 0, 1, 1, false⟩, ⟨2, 1, 2, 1, false⟩],
          results := ⟨[], [], []⟩, map_matched := 0, errs := [],
          mq_cache := -1 }
      = { waypoints := [⟨1, 0, 1, 1, false⟩, ⟨2, 1, 2, 1, false⟩],
          results := ⟨[], [], []⟩, map_matched := 0,
          errs := [criticalEntry], mq_cache := -1 }
      ∧ hasError (mapMatch (fun _ _ => .error ()) (fun _ _ => false)
          (99 / 100) 0 false
          { waypoints := [⟨1, 0, 1, 1, false⟩, ⟨2, 1, 2, 1, false⟩],
            results := ⟨[], [], []⟩, map_matched := 0, errs := [],
            mq_cache := -1 }) = true
      ∧ (mapMatch (fun _ _ => .error ()) (fun _ _ => false) (99 / 100) 0 false
          { waypoints := [⟨1, 0, 1, 1, false⟩, ⟨2, 1, 2, 1, false⟩],
            results := ⟨[], [], []⟩, map_matched := 0, errs := [],
            mq_cache := -1 }).map_matched = 0 :=
  (claim_C9_map_match_catches (fun _ _ => .error ()) (fun _ _ => false)
    (99 / 100) 0 false
    { waypoints := [⟨1, 0, 1, 1, false⟩, ⟨2, 1, 2, 1, false⟩],
      results := ⟨[], [], []⟩, map_matched := 0, errs := [],
      mq_cache := -1 } rfl).2 (Or.inl rfl) _ rfl

/-- Recomputing the match quality preserves the length of the waypoint
table and every row's `is_waypoint` flag. -/
theorem computeQuality_is_waypoint (cov : CovOracle) (s : TripState) :
    ((computeQuality cov s).2).waypoints.length = s.waypoints.length
      ∧ ∀ (i : ℕ) (h1 : i < ((computeQuality cov s).2).waypoints.length)
          (h2 : i < s.waypoints.length),
          (((computeQuality cov s).2).waypoints.get ⟨i, h1⟩).is_waypoint
            = (s.waypoints.get ⟨i, h2⟩).is_waypoint := by
  unfold computeQuality
  by_cases h : s.mq_cache < 0 <;> simp [h, List.get_map]

/-- The trial-resolution step keeps the table length. -/
theorem trialResolve_length (curr q : ℚ) (wp : List WRow) :
    (trialResolve curr q wp).length = wp.length := by
  simp [trialResolve]

/-- Row-wise reading of the trial-resolution step. -/
theorem trialResolve_get (curr q : ℚ) (wp : List WRow) (i : ℕ)
    (hi : i < (trialResolve curr q wp).length) (hw : i < wp.length) :
    (trialResolve curr q wp).get ⟨i, hi⟩
      = if (wp.get ⟨i, hw⟩).is_waypoint = 2
        then { wp.get ⟨i, hw⟩ with
          is_waypoint := if curr = q then -1 else 1 }
        else wp.get ⟨i, hw⟩ := by
  simp [trialResolve, List.get_map]

/-- C4 (amended): when a loop iteration continues, the trial waypoint is
retained (flag 1) iff the quality of this attempt differs from the previous
iteration's quality — a strict decrease also retains it — and otherwise it
is demoted to the revoked flag -1, which is distinct from the ordinary
state 0 and excludes the ping from future trial selection; non-trial rows
keep their flag.  The resulting table then receives the next trial
waypoint. -/
theorem claim_C4_trial_disposition (po : PathOracle) (cov : CovOracle)
    (minq pos curr pos2 q2 : ℚ) (s : TripState) (s2 : TripState)
    (h : mmStep po cov minq pos curr s = .next pos2 q2 s2) :
    ∃ wpMid, s2.waypoints = add_waypoint wpMid
      ∧ wpMid.length = s.waypoints.length
      ∧ ∀ (i : ℕ) (hi : i < wpMid.length) (hs : i < s.waypoints.length),
          (wpMid.get ⟨i, hi⟩).is_waypoint
            = if (s.waypoints.get ⟨i, hs⟩).is_waypoint = 2
              then (if curr = q2 then -1 else 1)
              else (s.waypoints.get ⟨i, hs⟩).is_waypoint := by
  unfold mmStep at h
  rcases hll : legsLoop po (consecPairs (activeStops s.waypoints)) ⟨[], [], []⟩
      pos with e | ⟨leg, posx⟩ <;> rw [hll] at h
  · cases h
  · dsimp only at h
    by_cases hbrk :
        minq ≤ (computeQuality cov { s with results := leg }).1
    · rw [if_pos hbrk] at h; cases h
    · rw [if_neg hbrk] at h
      injection h with h1 hq hs2
      refine ⟨trialResolve curr q2
        ((computeQuality cov { s with results := leg }).2).waypoints, ?_, ?_, ?_⟩
      · rw [← hs2, ← hq]
        rfl
      · rw [trialResolve_length]
        exact (computeQuality_is_waypoint cov { s with results := leg }).1
      · intro i hi hs
        have hlen : i < ((computeQuality cov
            { s with results := leg }).2).waypoints.length := by
          rw [← trialResolve_length curr q2]; exact hi
        have hwf := (computeQuality_is_waypoint cov
          { s with results := leg }).2 i hlen hs
        rw [trialResolve_get curr q2 _ i hi hlen]
        by_cases h2 : (((computeQuality cov
            { s with results := leg }).2).waypoints.get ⟨i, hlen⟩).is_waypoint
              = 2
        · rw [← hwf, if_pos h2, if_pos h2]
        · rw [← hwf, if_neg h2, if_neg h2]

/-- C4 witness: with previous quality 0 and attempt quality 0 (unchanged),
the single trial waypoint is demoted to flag -1. -/
theorem claim_C4_trial_disposition_witness :
    ∃ wpMid,
      ({ waypoints := [⟨1, 0, 5, -1, false⟩], results := ⟨[], [], []⟩,
          map_matched := 0, errs := [], mq_cache := -1 } :
            TripState).waypoints = add_waypoint wpMid
      ∧ wpMid.length = ([⟨1, 0, 5, 2, false⟩] : List WRow).length
      ∧ ∀ (i : ℕ) (hi : i < wpMid.length)
          (hs : i < ([⟨1, 0, 5, 2, false⟩] : List WRow).length),
          (wpMid.get ⟨i, hi⟩).is_waypoint
            = if (([⟨1, 0, 5, 2, false⟩] : List WRow).get ⟨i, hs⟩).is_waypoint
                  = 2
              then (if (0 : ℚ) = 0 then -1 else 1)
              else (([⟨1, 0, 5, 2, false⟩] : List WRow).get
                ⟨i, hs⟩).is_waypoint :=
  claim_C4_trial_disposition (fun _ _ => .ok none) (fun _ _ => false)
    (1 / 2) 0 0 0 0
    { waypoints := [⟨1, 0, 5, 2, false⟩], results := ⟨[], [], []⟩,
      map_matched := 0, errs := [], mq_cache := -1 }
    { waypoints := [⟨1, 0, 5, -1, false⟩], results := ⟨[], [], []⟩,
      map_matched := 0, errs := [], mq_cache := -1 }
    (by norm_num [mmStep, legsLoop, consecPairs, activeStops, computeQuality,
      matchQualityValue, resetTrip, trialResolve, add_waypoint, stopNodesOf,
      uncovDf, chains, runBounds, sortDesc, tryRuns, bincountArgmax, candsOf])

/-- C4 (counterexample): previous quality 1/2, attempt quality 0 — a strict
decrease, not an improvement — yet the trial waypoint is retained with flag
1 (the claim would demote it to the ordinary state). -/
theorem claim_C4_counterexample :
    mmStep (fun _ _ => .ok none) (fun _ _ => false) (1 / 2) 0 (1 / 2)
        { waypoints := [⟨1, 0, 5, 2, false⟩], results := ⟨[], [], []⟩,
          map_matched := 0, errs := [], mq_cache := -1 }
      = .next 0 0
        { waypoints := [⟨1, 0, 5, 1, false⟩], results := ⟨[], [], []⟩,
          map_matched := 0, errs := [], mq_cache := -1 }
      ∧ (0 : ℚ) < 1 / 2 := by
  constructor
  · norm_num [mmStep, legsLoop, consecPairs, activeStops, computeQuality,
      matchQualityValue, resetTrip, trialResolve, add_waypoint, stopNodesOf,
      uncovDf, chains, runBounds, sortDesc, tryRuns, bincountArgmax, candsOf]
  · norm_num

/-! ## Structure of `__add_waypoint`

The waypoint table of a conditioned trace has strictly increasing, positive
`ping_id` values (ping ids are `np.arange(...) + 1` in trace order); the
lemmas below unfold the run decomposition under this shape. -/

/-- In a table with strictly increasing ping ids, rows are determined by
their ping id. -/
theorem pairwise_pid_unique {wp : List WRow}
    (h : wp.Pairwise (fun a b => a.ping_id < b.ping_id)) :
    ∀ r ∈ wp, ∀ r2 ∈ wp, r.ping_id = r2.ping_id → r = r2 := by
  induction wp with
  | nil => intro r hr; cases hr
  | cons a l ih =>
    rcases List.pairwise_cons.mp h with ⟨ha, hl⟩
    intro r hr r2 hr2 heq
    rcases List.mem_cons.mp hr with hra | hr
    · rcases List.mem_cons.mp hr2 with hrb | hr2
      · rw [hra, hrb]
      · exfalso; have := ha r2 hr2; rw [hra] at heq; omega
    · rcases List.mem_cons.mp hr2 with hrb | hr2
      · exfalso; have := ha r hr; rw [hrb] at heq; omega
      · exact ih hl r hr r2 hr2 heq

/-- The run decomposition loses no row. -/
theorem chains_join : ∀ l : List WRow, (chains l).join = l := by
  intro l
  induction l with
  | nil => rfl
  | cons r rest ih =>
    unfold chains
    rcases hc : chains rest with _ | ⟨c0, cs⟩
    · rw [hc] at ih
      simp only [List.join] at ih
      simp [ih.symm]
    · rcases c0 with _ | ⟨r2, c⟩
      · rw [hc] at ih
        simpa using ih
      · rw [hc] at ih
        by_cases hpid : r2.ping_id = r.ping_id + 1 <;>
          simp [hpid] <;> simpa using ih

/-- Every run is non-empty. -/
theorem chains_ne_nil : ∀ (l : List WRow), ∀ c ∈ chains l, c ≠ [] := by
  intro l
  induction l with
  | nil => intro c hc; cases hc
  | cons r rest ih =>
    intro c hc
    unfold chains at hc
    rcases hcr : chains rest with _ | ⟨c0, cs⟩ <;> rw [hcr] at hc <;>
      (try dsimp only at hc)
    · simp at hc; simp [hc]
    · rcases c0 with _ | ⟨r2, c2⟩ <;> (try dsimp only at hc)
      · rcases List.mem_cons.mp hc with h | h
        · simp [h]
        · exact ih _ (by rw [hcr]; exact h)
      · by_cases hpid : r2.ping_id = r.ping_id + 1
        · rw [if_pos hpid] at hc
          rcases List.mem_cons.mp hc with h | h
          · simp [h]
          · exact ih _ (by rw [hcr]; exact List.mem_cons_of_mem _ h)
        · rw [if_neg hpid] at hc
          rcases List.mem_cons.mp hc with h | h
          · simp [h]
          · exact ih _ (by rw [hcr]; exact h)

/-- Within a run, consecutive rows have consecutive ping ids. -/
theorem chains_consec : ∀ (l : List WRow), ∀ c ∈ chains l,
    List.Chain' (fun a b => b.ping_id = a.ping_id + 1) c := by
  intro l
  induction l with
  | nil => intro c hc; cases hc
  | cons r rest ih =>
    intro c hc
    unfold chains at hc
    rcases hcr : chains rest with _ | ⟨c0, cs⟩ <;> rw [hcr] at hc <;>
      (try dsimp only at hc)
    · simp at hc; simp [hc]
    · rcases c0 with _ | ⟨r2, c2⟩ <;> (try dsimp only at hc)
      · rcases List.mem_cons.mp hc with h | h
        · simp [h]
        · exact ih _ (by rw [hcr]; exact h)
      · by_cases hpid : r2.ping_id = r.ping_id + 1
        · rw [if_pos hpid] at hc
          rcases List.mem_cons.mp hc with h | h
          · rw [h]
            exact List.chain'_cons.mpr ⟨hpid,
              ih _ (by rw [hcr]; exact List.mem_cons_self _ _)⟩
          · exact ih _ (by rw [hcr]; exact List.mem_cons_of_mem _ h)
        · rw [if_neg hpid] at hc
          rcases List.mem_cons.mp hc with h | h
          · simp [h]
          · exact ih _ (by rw [hcr]; exact h)

/-- A run with consecutive ping ids contains a row for every ping id
between its first and its last. -/
theorem chain_covers : ∀ (c : List WRow) (hne : c ≠ []),
    List.Chain' (fun a b => b.ping_id = a.ping_id + 1) c →
    ∀ p : ℕ, (c.head hne).ping_id ≤ p → p ≤ (c.getLast hne).ping_id →
      ∃ x ∈ c, x.ping_id = p := by
  intro c
  induction c with
  | nil => intro hne; cases hne rfl
  | cons x c ih =>
    intro _ hch p hp1 hp2
    cases c with
    | nil =>
      refine ⟨x, List.mem_singleton_self x, ?_⟩
      simp only [List.head_cons] at hp1
      simp only [List.getLast_singleton] at hp2
      omega
    | cons y c2 =>
      rcases List.chain'_cons.mp hch with ⟨hxy, hch2⟩
      simp only [List.head_cons] at hp1
      by_cases hp : p = x.ping_id
      · exact ⟨x, List.mem_cons_self _ _, hp.symm⟩
      · have hlast : (x :: y :: c2).getLast (by simp)
            = (y :: c2).getLast (by simp) := List.getLast_cons (by simp)
        rw [hlast] at hp2
        have hple : (((y :: c2).head (by simp)).ping_id) ≤ p := by
          simp only [List.head_cons]
          omega
        obtain ⟨z, hz, hzp⟩ := ih (by simp) hch2 p hple hp2
        exact ⟨z, List.mem_cons_of_mem x hz, hzp⟩

/-- The bounds of a non-empty run are the ping ids of its first and last
rows, and its elapsed time the difference of their timestamps. -/
theorem runBounds_of_ne_nil (c : List WRow) (h : c ≠ []) :
    runBounds c = some ((c.head h).ping_id, (c.getLast h).ping_id,
      (c.getLast h).timestamp - (c.head h).timestamp) := by
  unfold runBounds
  rw [List.head?_eq_head h, List.getLast?_eq_getLast c h]

/-- Every row of the waypoint table whose ping id falls inside one of the
uncovered runs is itself uncovered and ordinary. -/
theorem run_rows (wp : List WRow)
    (hWF : wp.Pairwise (fun a b => a.ping_id < b.ping_id))
    (frm fin : ℕ) (t : ℤ)
    (hmem : (frm, fin, t) ∈ (chains (uncovDf wp)).filterMap runBounds) :
    ∀ r ∈ wp, frm ≤ r.ping_id → r.ping_id ≤ fin →
      r.ping_is_covered = false ∧ r.is_waypoint = 0 := by
  rcases List.mem_filterMap.mp hmem with ⟨c, hc, hrb⟩
  have hcne : c ≠ [] := chains_ne_nil _ c hc
  have hch := chains_consec _ c hc
  rw [runBounds_of_ne_nil c hcne] at hrb
  injection hrb with hrb
  have hfrm : frm = (c.head hcne).ping_id := by
    have := congrArg Prod.fst hrb; simpa using this.symm
  have hfin : fin = (c.getLast hcne).ping_id := by
    have := congrArg (fun q => q.2.1) hrb; simpa using this.symm
  intro r hr h1 h2
  obtain ⟨x, hxc, hxp⟩ := chain_covers c hcne hch r.ping_id
    (by rw [hfrm] at h1; exact h1) (by rw [hfin] at h2; exact h2)
  have hxdf : x ∈ uncovDf wp := by
    have : x ∈ (chains (uncovDf wp)).join := List.mem_join.mpr ⟨c, hc, hxc⟩
    rwa [chains_join] at this
  have hxwp : x ∈ wp := List.mem_of_mem_filter hxdf
  have hrx : r = x := pairwise_pid_unique hWF r hr x hxwp hxp.symm
  have hcond := List.of_mem_filter hxdf
  rw [Bool.and_eq_true] at hcond
  rcases hcond with ⟨hcov, hwpt⟩
  rw [hrx]
  constructor
  · rcases hcov2 : x.ping_is_covered with _ | _
    · rfl
    · rw [hcov2] at hcov; cases hcov
  · exact of_decide_eq_true hwpt

/-- `insertDesc` only rearranges. -/
theorem mem_insertDesc (x y : ℕ × ℕ × ℤ) :
    ∀ l : List (ℕ × ℕ × ℤ), y ∈ insertDesc x l ↔ y = x ∨ y ∈ l := by
  intro l
  induction l with
  | nil => simp [insertDesc]
  | cons a l ih =>
    by_cases h : a.2.2 < x.2.2 <;> simp [insertDesc, h, ih] <;> tauto

/-- Sorting the runs by descending elapsed time only rearranges. -/
theorem mem_sortDesc (y : ℕ × ℕ × ℤ) :
    ∀ l : List (ℕ × ℕ × ℤ), y ∈ sortDesc l ↔ y ∈ l := by
  intro l
  induction l with
  | nil => simp [sortDesc]
  | cons a l ih => simp [sortDesc, mem_insertDesc, ih]

/-- Inserting into a list sorted by descending elapsed time keeps it
sorted. -/
theorem insertDesc_sorted (x : ℕ × ℕ × ℤ) :
    ∀ l : List (ℕ × ℕ × ℤ), l.Pairwise (fun a b => b.2.2 ≤ a.2.2) →
      (insertDesc x l).Pairwise (fun a b => b.2.2 ≤ a.2.2) := by
  intro l
  induction l with
  | nil => intro _; simp [insertDesc]
  | cons y ys ih =>
    intro hp
    rcases List.pairwise_cons.mp hp with ⟨hy, hys⟩
    by_cases h : y.2.2 < x.2.2
    · simp only [insertDesc, if_pos h]
      refine List.pairwise_cons.mpr ⟨?_, hp⟩
      intro b hb
      rcases List.mem_cons.mp hb with hb | hb
      · rw [hb]; omega
      · have := hy b hb; omega
    · simp only [insertDesc, if_neg h]
      refine List.pairwise_cons.mpr ⟨?_, ih hys⟩
      intro b hb
      rcases (mem_insertDesc x b ys).mp hb with hb | hb
      · rw [hb]; omega
      · exact hy b hb

/-- `sortDesc` really orders the runs by descending elapsed time: every
later run's elapsed time is at most every earlier one's. -/
theorem sortDesc_sorted :
    ∀ l : List (ℕ × ℕ × ℤ),
      (sortDesc l).Pairwise (fun a b => b.2.2 ≤ a.2.2) := by
  intro l
  induction l with
  | nil => simp [sortDesc]
  | cons x xs ih => exact insertDesc_sorted x (sortDesc xs) ih

/-- The argmax fold keeps an element whose count dominates the initial
value and everything visited. -/
theorem foldl_pick_max_ge (l : List ℕ) :
    ∀ (vs : List ℕ) (init : ℕ),
      l.count init ≤ l.count (vs.foldl
          (fun best v => if l.count best < l.count v then v else best) init)
        ∧ ∀ v ∈ vs, l.count v ≤ l.count (vs.foldl
          (fun best v => if l.count best < l.count v then v else best) init) := by
  intro vs
  induction vs with
  | nil =>
    intro init
    exact ⟨le_refl _, by intro v hv; cases hv⟩
  | cons w vs ih =>
    intro init
    have hstep : l.count init
        ≤ l.count (if l.count init < l.count w then w else init) := by
      split
      · omega
      · exact le_refl _
    have hstepw : l.count w
        ≤ l.count (if l.count init < l.count w then w else init) := by
      split
      · exact le_refl _
      · omega
    have IH := ih (if l.count init < l.count w then w else init)
    refine ⟨le_trans hstep IH.1, ?_⟩
    intro v hv
    rcases List.mem_cons.mp hv with hvw | hv
    · rw [hvw]; exact le_trans hstepw IH.1
    · exact IH.2 v hv

/-- `np.argmax(np.bincount(l))` dominates the multiplicity of every value. -/
theorem count_le_bincountArgmax (l : List ℕ) (v : ℕ) :
    l.count v ≤ l.count (bincountArgmax l) := by
  by_cases hv : v ≤ l.foldr max 0
  · have hvr : v ∈ List.range (l.foldr max 0 + 1) :=
      List.mem_range.mpr (by omega)
    exact (foldl_pick_max_ge l (List.range (l.foldr max 0 + 1)) 0).2 v hvr
  · have hnm : v ∉ l := fun hmem => hv (le_foldr_max hmem)
    rw [List.count_eq_zero.mpr hnm]
    exact Nat.zero_le _

/-- On a non-empty list the chosen bin is actually populated. -/
theorem bincountArgmax_count_pos (l : List ℕ) (h : l ≠ []) :
    0 < l.count (bincountArgmax l) := by
  obtain ⟨x, hx⟩ := List.exists_mem_of_ne_nil l h
  exact lt_of_lt_of_le (List.count_pos_iff.mpr hx) (count_le_bincountArgmax l x)

/-- `values[0]` of a non-empty frame is one of its rows. -/
theorem headD_mem {l : List WRow} (h : l ≠ []) (d : WRow) : l.headD d ∈ l := by
  cases l with
  | nil => cases h rfl
  | cons a l => exact List.mem_cons_self _ _

/-- In a frame sorted by ping id, `values[0]` has the smallest ping id. -/
theorem pairwise_headD_min {l : List WRow}
    (h : l.Pairwise (fun a b => a.ping_id < b.ping_id)) (d : WRow) :
    ∀ x ∈ l, (l.headD d).ping_id ≤ x.ping_id := by
  cases l with
  | nil => intro x hx; cases hx
  | cons a l =>
    intro x hx
    rcases List.mem_cons.mp hx with hxa | hx
    · rw [hxa]; exact le_refl _
    · exact le_of_lt ((List.pairwise_cons.mp h).1 x hx)

/-- Reading off the membership conditions of a candidate row. -/
theorem mem_candsOf {wp : List WRow} {stopN : List ℕ} {frm fin : ℕ}
    {r : WRow} (h : r ∈ candsOf wp stopN frm fin) :
    r ∈ wp ∧ frm ≤ r.ping_id ∧ r.ping_id ≤ fin ∧ r.stop_node ∉ stopN := by
  unfold candsOf at h
  obtain ⟨h1, h2⟩ := List.mem_filter.mp h
  rw [Bool.and_eq_true, Bool.and_eq_true] at h2
  rcases h2 with ⟨⟨hc1, hc2⟩, hc3⟩
  refine ⟨h1, of_decide_eq_true hc1, of_decide_eq_true hc2, ?_⟩
  intro hmem
  simp [hmem] at hc3

/-- The row picked from a non-empty candidate set: it is a candidate, its
stop node is the modal candidate stop node, and it is the earliest ping
mapping to that node. -/
theorem pick_row_spec (cands : List WRow)
    (hpw : cands.Pairwise (fun a b => a.ping_id < b.ping_id))
    (hne : cands ≠ []) :
    ((cands.filter (fun r => decide (r.stop_node
        = bincountArgmax (cands.map (fun r => r.stop_node))))).headD default)
        ∈ cands
      ∧ ((cands.filter (fun r => decide (r.stop_node
          = bincountArgmax (cands.map (fun r => r.stop_node))))).headD
            default).stop_node
          = bincountArgmax (cands.map (fun r => r.stop_node))
      ∧ (∀ v : ℕ, (cands.map (fun r => r.stop_node)).count v
          ≤ (cands.map (fun r => r.stop_node)).count
            (((cands.filter (fun r => decide (r.stop_node
              = bincountArgmax (cands.map (fun r => r.stop_node))))).headD
                default).stop_node))
      ∧ ∀ r2 ∈ cands,
          r2.stop_node = (((cands.filter (fun r => decide (r.stop_node
              = bincountArgmax (cands.map (fun r => r.stop_node))))).headD
                default).stop_node) →
          (((cands.filter (fun r => decide (r.stop_node
              = bincountArgmax (cands.map (fun r => r.stop_node))))).headD
                default).ping_id) ≤ r2.ping_id := by
  set node := bincountArgmax (cands.map (fun r => r.stop_node)) with hnode
  set flt := cands.filter (fun r => decide (r.stop_node = node)) with hflt
  have hfne : flt ≠ [] := by
    have hmapne : cands.map (fun r => r.stop_node) ≠ [] := by
      intro h; exact hne (List.map_eq_nil_iff.mp h)
    have hpos : 0 < (cands.map (fun r => r.stop_node)).count node :=
      bincountArgmax_count_pos _ hmapne
    obtain ⟨v, hv, hveq⟩ := List.exists_of_mem_map
      (List.count_pos_iff.mp hpos)
    intro hnil
    have hvf : v ∈ flt := by
      rw [hflt]
      exact List.mem_filter.mpr ⟨hv, decide_eq_true hveq⟩
    rw [hnil] at hvf
    cases hvf
  have hmemflt : flt.headD default ∈ flt := headD_mem hfne default
  have hmemflt2 : flt.headD default
      ∈ cands.filter (fun r => decide (r.stop_node = node)) := by
    rw [← hflt]; exact hmemflt
  obtain ⟨hmemc, hstopd⟩ := List.mem_filter.mp hmemflt2
  have hstop : (flt.headD default).stop_node = node := of_decide_eq_true hstopd
  refine ⟨hmemc, hstop, ?_, ?_⟩
  · intro v
    rw [hstop]
    exact count_le_bincountArgmax _ v
  · intro r2 hr2 hstop2
    have hr2f : r2 ∈ flt := by
      rw [hflt]
      refine List.mem_filter.mpr ⟨hr2, decide_eq_true ?_⟩
      rw [hstop2, hstop]
    exact pairwise_headD_min (hpw.filter _) default r2 hr2f

/-- The first of the rows sharing the selected ping id is still ordinary
whenever the selected row itself is. -/
theorem break_headD (wp : List WRow)
    (hWF : wp.Pairwise (fun a b => a.ping_id < b.ping_id)) (rc : WRow)
    (hrcwp : rc ∈ wp) (h0 : rc.is_waypoint = 0) :
    ((wp.filter (fun r => decide (r.ping_id = rc.ping_id))).headD
      default).is_waypoint = 0 := by
  have hrcin : rc ∈ wp.filter (fun r => decide (r.ping_id = rc.ping_id)) :=
    List.mem_filter.mpr ⟨hrcwp, decide_eq_true rfl⟩
  have hne : wp.filter (fun r => decide (r.ping_id = rc.ping_id)) ≠ [] := by
    intro hnil; rw [hnil] at hrcin; cases hrcin
  have hw0mem := headD_mem hne (default : WRow)
  obtain ⟨hw0wp, hw0d⟩ := List.mem_filter.mp hw0mem
  have hw0pid : ((wp.filter
      (fun r => decide (r.ping_id = rc.ping_id))).headD default).ping_id
        = rc.ping_id := of_decide_eq_true hw0d
  rw [pairwise_pid_unique hWF _ hw0wp rc hrcwp hw0pid]
  exact h0

/-- The run loop either returns ping id 0 (never assigned) or the ping id of
an uncovered ordinary row whose stop node is new; the selected row carries
the most frequent candidate stop node of its run and is the earliest ping
mapping to it, and — since the runs are walked in descending elapsed-time
order and the loop breaks at the first run with candidates — its run has
maximal elapsed time among the runs that still hold an unused candidate
stop node. -/
theorem tryRuns_characterization (wp : List WRow)
    (hWF : wp.Pairwise (fun a b => a.ping_id < b.ping_id)) :
    ∀ runs : List (ℕ × ℕ × ℤ),
      (∀ x ∈ runs, x ∈ (chains (uncovDf wp)).filterMap runBounds) →
      runs.Pairwise (fun a b => b.2.2 ≤ a.2.2) →
      (∀ frm2 fin2 : ℕ, ∀ t2 : ℤ,
        (frm2, fin2, t2) ∈ (chains (uncovDf wp)).filterMap runBounds →
        candsOf wp (stopNodesOf wp) frm2 fin2 ≠ [] →
        (frm2, fin2, t2) ∈ runs) →
      tryRuns wp (stopNodesOf wp) runs 0 = 0
      ∨ ∃ r ∈ wp,
          r.ping_id = tryRuns wp (stopNodesOf wp) runs 0
          ∧ r.is_waypoint = 0 ∧ r.ping_is_covered = false
          ∧ r.stop_node ∉ stopNodesOf wp
          ∧ ∃ frm fin t,
              (frm, fin, t) ∈ (chains (uncovDf wp)).filterMap runBounds
              ∧ frm ≤ r.ping_id ∧ r.ping_id ≤ fin
              ∧ (∀ frm2 fin2 : ℕ, ∀ t2 : ℤ,
                  (frm2, fin2, t2) ∈ (chains (uncovDf wp)).filterMap runBounds →
                  candsOf wp (stopNodesOf wp) frm2 fin2 ≠ [] → t2 ≤ t)
              ∧ (∀ v : ℕ,
                  ((candsOf wp (stopNodesOf wp) frm fin).map
                    (fun x => x.stop_node)).count v
                  ≤ ((candsOf wp (stopNodesOf wp) frm fin).map
                    (fun x => x.stop_node)).count r.stop_node)
              ∧ ∀ r2 ∈ candsOf wp (stopNodesOf wp) frm fin,
                  r2.stop_node = r.stop_node → r.ping_id ≤ r2.ping_id := by
  intro runs
  induction runs with
  | nil => intro _ _ _; left; rfl
  | cons run rest ih =>
    intro hsub hsorted hcomplete
    obtain ⟨frm, fin, t⟩ := run
    have hrunmem := hsub _ (List.mem_cons_self _ _)
    by_cases hemp : (candsOf wp (stopNodesOf wp) frm fin).isEmpty
    · have hclq : candsOf wp (stopNodesOf wp) frm fin = [] := by
        rcases h : candsOf wp (stopNodesOf wp) frm fin with _ | ⟨a, l⟩
        · rfl
        · rw [h] at hemp; cases hemp
      have hred : tryRuns wp (stopNodesOf wp) ((frm, fin, t) :: rest) 0
          = tryRuns wp (stopNodesOf wp) rest 0 := by
        simp only [tryRuns]
        rw [if_pos hemp]
      rw [hred]
      refine ih (fun x hx => hsub x (List.mem_cons_of_mem _ hx))
        ((List.pairwise_cons.mp hsorted).2) ?_
      intro frm2 fin2 t2 hb hcand
      rcases List.mem_cons.mp (hcomplete frm2 fin2 t2 hb hcand) with heq | hrest
      · exfalso
        apply hcand
        rw [show frm2 = frm from congrArg Prod.fst heq,
          show fin2 = fin from congrArg (fun q => q.2.1) heq]
        exact hclq
      · exact hrest
    · right
      have hcne : candsOf wp (stopNodesOf wp) frm fin ≠ [] := by
        intro hnil
        apply hemp
        rw [hnil]
        rfl
      have hcpw : (candsOf wp (stopNodesOf wp) frm fin).Pairwise
          (fun a b => a.ping_id < b.ping_id) := hWF.filter _
      obtain ⟨hrcmem, hrcnode, hmode, hearliest⟩ :=
        pick_row_spec (candsOf wp (stopNodesOf wp) frm fin) hcpw hcne
      set rc := (((candsOf wp (stopNodesOf wp) frm fin).filter
        (fun r => decide (r.stop_node = bincountArgmax
          ((candsOf wp (stopNodesOf wp) frm fin).map
            (fun r => r.stop_node))))).headD default) with hrc
      obtain ⟨hrcwp, hfrm, hfin, hnost⟩ := mem_candsOf hrcmem
      have hrow := run_rows wp hWF frm fin t hrunmem rc hrcwp hfrm hfin
      have hbreak := break_headD wp hWF rc hrcwp hrow.2
      have hres : tryRuns wp (stopNodesOf wp) ((frm, fin, t) :: rest) 0
          = rc.ping_id := by
        simp only [tryRuns]
        rw [if_neg hemp, ← hrc, if_pos hbreak]
      have hworst : ∀ frm2 fin2 : ℕ, ∀ t2 : ℤ,
          (frm2, fin2, t2) ∈ (chains (uncovDf wp)).filterMap runBounds →
          candsOf wp (stopNodesOf wp) frm2 fin2 ≠ [] → t2 ≤ t := by
        intro frm2 fin2 t2 hb hcand
        rcases List.mem_cons.mp (hcomplete frm2 fin2 t2 hb hcand)
          with heq | hrest
        · rw [show t2 = t from congrArg (fun q => q.2.2) heq]
        · exact (List.pairwise_cons.mp hsorted).1 (frm2, fin2, t2) hrest
      exact ⟨rc, hrcwp, hres.symm, hrow.2, hrow.1, hnost,
        frm, fin, t, hrunmem, hfrm, hfin, hworst, hmode, hearliest⟩

/-- Marking the (unique) row of a given ping id as trial raises the trial
count by exactly one when that row was ordinary. -/
theorem countP_set_trial (wp : List WRow)
    (hWF : wp.Pairwise (fun a b => a.ping_id < b.ping_id))
    (r : WRow) (hr : r ∈ wp) (h0 : r.is_waypoint = 0) :
    (wp.map (fun x => if x.ping_id = r.ping_id
        then { x with is_waypoint := 2 } else x)).countP
          (fun x => decide (x.is_waypoint = 2))
      = wp.countP (fun x => decide (x.is_waypoint = 2)) + 1 := by
  induction wp with
  | nil => cases hr
  | cons a l ih =>
    rcases List.pairwise_cons.mp hWF with ⟨ha, hl⟩
    rcases List.mem_cons.mp hr with hra | hrl
    · have htail : List.map (fun x => if x.ping_id = r.ping_id
          then { x with is_waypoint := 2 } else x) l = l := by
        have hni : ∀ x ∈ l, (if x.ping_id = r.ping_id
            then { x with is_waypoint := 2 } else x) = x := by
          intro x hx
          rw [if_neg]
          have := ha x hx
          rw [← hra] at this
          omega
        rw [List.map_congr_left hni, List.map_id']
      have hhead : (if a.ping_id = r.ping_id
          then { a with is_waypoint := 2 } else a)
            = { a with is_waypoint := 2 } := by
        rw [if_pos (by rw [hra])]
      have ha0 : a.is_waypoint = 0 := by rw [← hra]; exact h0
      simp [List.countP_cons, htail, hhead, ha0]
    · have hane : ¬(a.ping_id = r.ping_id) := by
        have := ha r hrl
        omega
      have hhead : (if a.ping_id = r.ping_id
          then { a with is_waypoint := 2 } else a) = a := if_neg hane
      simp only [List.map_cons, hhead, List.countP_cons, ih hl hrl]
      omega

/-- C8 (amended): a call to `__add_waypoint` inserts at most one trial
waypoint — none when every uncovered run holds only stop nodes already used
by existing waypoints — and an inserted trial comes from the uncovered runs
taken in descending order of elapsed time: its run has maximal elapsed time
among the runs that still hold an unused candidate stop node, and within it
the trial is an uncovered ordinary ping whose stop node is not among the
existing waypoint stop nodes, carrying the most frequent candidate stop
node of the run, at the earliest ping id mapping to that node. -/
theorem claim_C8_add_waypoint_behaviour (wp : List WRow)
    (hWF : wp.Pairwise (fun a b => a.ping_id < b.ping_id))
    (hpos : ∀ r ∈ wp, 1 ≤ r.ping_id) :
    add_waypoint wp = wp
    ∨ ∃ r ∈ wp, r.is_waypoint = 0 ∧ r.ping_is_covered = false
        ∧ r.stop_node ∉ stopNodesOf wp
        ∧ add_waypoint wp = wp.map (fun x =>
            if x.ping_id = r.ping_id then { x with is_waypoint := 2 } else x)
        ∧ (add_waypoint wp).countP (fun x => decide (x.is_waypoint = 2))
            = wp.countP (fun x => decide (x.is_waypoint = 2)) + 1
        ∧ ∃ frm fin t,
            (frm, fin, t) ∈ (chains (uncovDf wp)).filterMap runBounds
            ∧ frm ≤ r.ping_id ∧ r.ping_id ≤ fin
            ∧ (∀ frm2 fin2 : ℕ, ∀ t2 : ℤ,
                (frm2, fin2, t2) ∈ (chains (uncovDf wp)).filterMap runBounds →
                candsOf wp (stopNodesOf wp) frm2 fin2 ≠ [] → t2 ≤ t)
            ∧ (∀ v : ℕ, ((candsOf wp (stopNodesOf wp) frm fin).map
                  (fun x => x.stop_node)).count v
                ≤ ((candsOf wp (stopNodesOf wp) frm fin).map
                  (fun x => x.stop_node)).count r.stop_node)
            ∧ ∀ r2 ∈ candsOf wp (stopNodesOf wp) frm fin,
                r2.stop_node = r.stop_node → r.ping_id ≤ r2.ping_id := by
  have hkey := tryRuns_characterization wp hWF
    (sortDesc ((chains (uncovDf wp)).filterMap runBounds))
    (fun x hx => (mem_sortDesc x _).mp hx)
    (sortDesc_sorted _)
    (fun frm2 fin2 t2 hb _ => (mem_sortDesc (frm2, fin2, t2) _).mpr hb)
  rcases hkey with hz | ⟨r, hrwp, hpid, hr0, hrcov, hnost, hruns⟩
  · left
    unfold add_waypoint
    dsimp only
    rw [hz]
    have hni : ∀ x ∈ wp, (if x.ping_id = 0
        then { x with is_waypoint := 2 } else x) = x := by
      intro x hx
      rw [if_neg]
      have := hpos x hx
      omega
    rw [List.map_congr_left hni, List.map_id']
  · right
    have hadd : add_waypoint wp = wp.map (fun x =>
        if x.ping_id = r.ping_id then { x with is_waypoint := 2 } else x) := by
      unfold add_waypoint
      dsimp only
      rw [← hpid]
    refine ⟨r, hrwp, hr0, hrcov, hnost, hadd, ?_, hruns⟩
    rw [hadd]
    exact countP_set_trial wp hWF r hrwp hr0

/-- C8 witness: a three-row table with an uncovered ordinary ping whose
stop node is new. -/
theorem claim_C8_add_waypoint_behaviour_witness :
    add_waypoint [⟨1, 0, 5, 1, false⟩, ⟨2, 10, 6, 0, false⟩,
        ⟨3, 20, 7, 1, false⟩]
      = [⟨1, 0, 5, 1, false⟩, ⟨2, 10, 6, 0, false⟩, ⟨3, 20, 7, 1, false⟩]
    ∨ ∃ r ∈ ([⟨1, 0, 5, 1, false⟩, ⟨2, 10, 6, 0, false⟩,
        ⟨3, 20, 7, 1, false⟩] : List WRow),
        r.is_waypoint = 0 ∧ r.ping_is_covered = false
        ∧ r.stop_node ∉ stopNodesOf [⟨1, 0, 5, 1, false⟩,
            ⟨2, 10, 6, 0, false⟩, ⟨3, 20, 7, 1, false⟩]
        ∧ add_waypoint [⟨1, 0, 5, 1, false⟩, ⟨2, 10, 6, 0, false⟩,
            ⟨3, 20, 7, 1, false⟩]
          = [⟨1, 0, 5, 1, false⟩, ⟨2, 10, 6, 0, false⟩,
              ⟨3, 20, 7, 1, false⟩].map (fun x =>
            if x.ping_id = r.ping_id then { x with is_waypoint := 2 } else x)
        ∧ (add_waypoint [⟨1, 0, 5, 1, false⟩, ⟨2, 10, 6, 0, false⟩,
            ⟨3, 20, 7, 1, false⟩]).countP
              (fun x => decide (x.is_waypoint = 2))
          = ([⟨1, 0, 5, 1, false⟩, ⟨2, 10, 6, 0, false⟩,
              ⟨3, 20, 7, 1, false⟩] : List WRow).countP
              (fun x => decide (x.is_waypoint = 2)) + 1
        ∧ ∃ frm fin t,
            (frm, fin, t) ∈ (chains (uncovDf [⟨1, 0, 5, 1, false⟩,
              ⟨2, 10, 6, 0, false⟩, ⟨3, 20, 7, 1, false⟩])).filterMap runBounds
            ∧ frm ≤ r.ping_id ∧ r.ping_id ≤ fin
            ∧ (∀ frm2 fin2 : ℕ, ∀ t2 : ℤ,
                (frm2, fin2, t2) ∈ (chains (uncovDf [⟨1, 0, 5, 1, false⟩,
                  ⟨2, 10, 6, 0, false⟩,
                  ⟨3, 20, 7, 1, false⟩])).filterMap runBounds →
                candsOf [⟨1, 0, 5, 1, false⟩, ⟨2, 10, 6, 0, false⟩,
                  ⟨3, 20, 7, 1, false⟩] (stopNodesOf [⟨1, 0, 5, 1, false⟩,
                  ⟨2, 10, 6, 0, false⟩, ⟨3, 20, 7, 1, false⟩]) frm2 fin2 ≠ []
                → t2 ≤ t)
            ∧ (∀ v : ℕ, ((candsOf [⟨1, 0, 5, 1, false⟩, ⟨2, 10, 6, 0, false⟩,
                  ⟨3, 20, 7, 1, false⟩] (stopNodesOf [⟨1, 0, 5, 1, false⟩,
                  ⟨2, 10, 6, 0, false⟩, ⟨3, 20, 7, 1, false⟩]) frm fin).map
                  (fun x => x.stop_node)).count v
                ≤ ((candsOf [⟨1, 0, 5, 1, false⟩, ⟨2, 10, 6, 0, false⟩,
                  ⟨3, 20, 7, 1, false⟩] (stopNodesOf [⟨1, 0, 5, 1, false⟩,
                  ⟨2, 10, 6, 0, false⟩, ⟨3, 20, 7, 1, false⟩]) frm fin).map
                  (fun x => x.stop_node)).count r.stop_node)
            ∧ ∀ r2 ∈ candsOf [⟨1, 0, 5, 1, false⟩, ⟨2, 10, 6, 0, false⟩,
                ⟨3, 20, 7, 1, false⟩] (stopNodesOf [⟨1, 0, 5, 1, false⟩,
                ⟨2, 10, 6, 0, false⟩, ⟨3, 20, 7, 1, false⟩]) frm fin,
                r2.stop_node = r.stop_node → r.ping_id ≤ r2.ping_id :=
  claim_C8_add_waypoint_behaviour
    [⟨1, 0, 5, 1, false⟩, ⟨2, 10, 6, 0, false⟩, ⟨3, 20, 7, 1, false⟩]
    (by decide) (by decide)

/-- C8 (counterexample): when the only uncovered ordinary ping maps to a
stop node already used by an existing waypoint, `__add_waypoint` inserts
nothing — the `ping_id` variable keeps its initial value 0 and no row
matches it — refuting "exactly one trial waypoint per call". -/
theorem claim_C8_counterexample :
    add_waypoint [⟨1, 0, 5, 1, false⟩, ⟨2, 10, 5, 0, false⟩,
        ⟨3, 20, 7, 1, false⟩]
      = [⟨1, 0, 5, 1, false⟩, ⟨2, 10, 5, 0, false⟩, ⟨3, 20, 7, 1, false⟩]
    ∧ ([⟨1, 0, 5, 1, false⟩, ⟨2, 10, 5, 0, false⟩,
        ⟨3, 20, 7, 1, false⟩] : List WRow).countP
        (fun x => decide (x.is_waypoint = 2)) = 0
    ∧ uncovDf [⟨1, 0, 5, 1, false⟩, ⟨2, 10, 5, 0, false⟩,
        ⟨3, 20, 7, 1, false⟩] ≠ [] := by
  refine ⟨?_, by decide, by decide⟩
  decide

/-! ## Bearings (`mapmatcher/linebearing.py`)

`vectorized_line_bearing` feeds the latitude/longitude values — which are in
degrees after `to_crs(4326)` — directly into `np.sin` / `np.cos` / `np.arctan2`
(which work in radians), converts the result to degrees, adds 180 and reduces
modulo 360.  The reals model the float computation exactly at the test
points, where every intermediate rounds exactly. -/

/-- `np.arctan2(a, b)`: the angle of the point `(b, a)` in `(-π, π]`. -/
noncomputable def np_arctan2 (a b : ℝ) : ℝ := ((b : ℂ) + a * Complex.I).arg

/-- numpy `%` on reals: `x % m = x - m * floor (x / m)`. -/
noncomputable def rmod (x m : ℝ) : ℝ := x - m * ⌊x / m⌋

/-- `vectorized_line_bearing` on one coordinate pair (`linebearing.py`
lines 34-40); all four arguments are degrees. -/
noncomputable def vectorized_line_bearing (lat1 long1 lat2 long2 : ℝ) : ℝ :=
  let delta_long := long2 - long1
  let x := Real.sin delta_long * Real.cos lat2
  let y := Real.cos lat1 * Real.sin lat2
    - Real.sin lat1 * Real.cos lat2 * Real.cos delta_long
  rmod (np_arctan2 x y * (180 / Real.pi) + 180) 360

/-- `bearing_for_gps` (`linebearing.py` lines 6-14) over a trace given as
`(latitude, longitude)` pairs in degrees: pairwise bearings with the last
entry duplicated (`array[-1] = compass_bearing[-1]`; traces have at least
two pings). -/
noncomputable def bearing_for_gps (pts : List (ℝ × ℝ)) : List ℝ :=
  let bs := List.zipWith
    (fun p q => vectorized_line_bearing p.1 p.2 q.1 q.2) pts pts.tail
  bs ++ [bs.getLastD 0]

/-- `sin 90` (radians!) is positive: `90 - 28π` lies in `(0, π)`. -/
theorem sin_ninety_pos : 0 < Real.sin 90 := by
  have h1 : Real.sin 90 = Real.sin (90 - (14 : ℤ) * (2 * Real.pi)) :=
    (Real.sin_sub_int_mul_two_pi 90 14).symm
  rw [h1]
  apply Real.sin_pos_of_pos_of_lt_pi
  · have := Real.pi_lt_d2
    push_cast
    nlinarith
  · have h2 := Real.pi_gt_d2
    push_cast
    nlinarith

/-- `⌊x⌋ = 0` for `x ∈ [0, 1)`, over ℝ. -/
theorem floor_eq_zero_of (x : ℝ) (h0 : 0 ≤ x) (h1 : x < 1) : ⌊x⌋ = 0 := by
  rw [Int.floor_eq_zero_iff]
  exact ⟨h0, h1⟩

/-- `rmod` at the four concrete values appearing in the bearing test. -/
theorem rmod_270 : rmod (90 + 180) 360 = 270 := by
  unfold rmod
  rw [show ((90 : ℝ) + 180) / 360 = 3 / 4 by norm_num,
    floor_eq_zero_of (3 / 4) (by norm_num) (by norm_num)]
  norm_num

theorem rmod_90 : rmod (-90 + 180) 360 = 90 := by
  unfold rmod
  rw [show ((-90 : ℝ) + 180) / 360 = 1 / 4 by norm_num,
    floor_eq_zero_of (1 / 4) (by norm_num) (by norm_num)]
  norm_num

theorem rmod_0 : rmod (180 + 180) 360 = 0 := by
  unfold rmod
  rw [show ((180 : ℝ) + 180) / 360 = 1 by norm_num]
  norm_num

theorem rmod_180 : rmod (0 + 180) 360 = 180 := by
  unfold rmod
  rw [show ((0 : ℝ) + 180) / 360 = 1 / 2 by norm_num,
    floor_eq_zero_of (1 / 2) (by norm_num) (by norm_num)]
  norm_num

/-- First test pair `(0,0) → (0,90)`: the code returns 270. -/
theorem vlb_pair1 : vectorized_line_bearing 0 0 0 90 = 270 := by
  unfold vectorized_line_bearing
  dsimp only
  have hx : Real.sin (90 - 0) * Real.cos 0 = Real.sin 90 := by
    norm_num
  have hy : Real.cos 0 * Real.sin 0
      - Real.sin 0 * Real.cos 0 * Real.cos (90 - 0) = 0 := by
    simp
  rw [hx, hy]
  have harg : np_arctan2 (Real.sin 90) 0 = Real.pi / 2 := by
    unfold np_arctan2
    rw [show ((0 : ℝ) : ℂ) + (Real.sin 90 : ℝ) * Complex.I
        = (Real.sin 90 : ℝ) * Complex.I by push_cast; ring]
    rw [Complex.arg_real_mul Complex.I sin_ninety_pos, Complex.arg_I]
  rw [harg]
  rw [show Real.pi / 2 * (180 / Real.pi) = 90 by
    field_simp; ring]
  exact rmod_270

/-- Second test pair `(0,90) → (0,0)`: the code returns 90. -/
theorem vlb_pair2 : vectorized_line_bearing 0 90 0 0 = 90 := by
  unfold vectorized_line_bearing
  dsimp only
  have hx : Real.sin (0 - 90) * Real.cos 0 = -Real.sin 90 := by
    rw [show (0 : ℝ) - 90 = -90 by ring, Real.sin_neg]
    norm_num
  have hy : Real.cos 0 * Real.sin 0
      - Real.sin 0 * Real.cos 0 * Real.cos (0 - 90) = 0 := by
    simp
  rw [hx, hy]
  have harg : np_arctan2 (-Real.sin 90) 0 = -(Real.pi / 2) := by
    unfold np_arctan2
    rw [show ((0 : ℝ) : ℂ) + (-Real.sin 90 : ℝ) * Complex.I
        = (Real.sin 90 : ℝ) * -Complex.I by push_cast; ring]
    rw [Complex.arg_real_mul (-Complex.I) sin_ninety_pos, Complex.arg_neg_I]
  rw [harg]
  rw [show -(Real.pi / 2) * (180 / Real.pi) = -90 by
    field_simp; ring]
  exact rmod_90

/-- Third test pair `(0,0) → (-90,0)`: the code returns 0. -/
theorem vlb_pair3 : vectorized_line_bearing 0 0 (-90) 0 = 0 := by
  unfold vectorized_line_bearing
  dsimp only
  have hx : Real.sin (0 - 0) * Real.cos (-90) = 0 := by
    simp
  have hy : Real.cos 0 * Real.sin (-90)
      - Real.sin 0 * Real.cos (-90) * Real.cos (0 - 0) = -Real.sin 90 := by
    rw [Real.sin_neg]
    simp
  rw [hx, hy]
  have harg : np_arctan2 0 (-Real.sin 90) = Real.pi := by
    unfold np_arctan2
    rw [show ((-Real.sin 90 : ℝ) : ℂ) + (0 : ℝ) * Complex.I
        = ((-Real.sin 90 : ℝ) : ℂ) by push_cast; ring]
    exact Complex.arg_ofReal_of_neg (by have := sin_ninety_pos; linarith)
  rw [harg]
  rw [show Real.pi * (180 / Real.pi) = 180 by
    field_simp]
  exact rmod_0

/-- Fourth test pair `(-90,0) → (0,0)`: the code returns 180. -/
theorem vlb_pair4 : vectorized_line_bearing (-90) 0 0 0 = 180 := by
  unfold vectorized_line_bearing
  dsimp only
  have hx : Real.sin (0 - 0) * Real.cos 0 = 0 := by
    simp
  have hy : Real.cos (-90) * Real.sin 0
      - Real.sin (-90) * Real.cos 0 * Real.cos (0 - 0) = Real.sin 90 := by
    rw [Real.sin_neg]
    simp
  rw [hx, hy]
  have harg : np_arctan2 0 (Real.sin 90) = 0 := by
    unfold np_arctan2
    rw [show ((Real.sin 90 : ℝ) : ℂ) + (0 : ℝ) * Complex.I
        = ((Real.sin 90 : ℝ) : ℂ) by push_cast; ring]
    exact Complex.arg_ofReal_of_nonneg (le_of_lt sin_ninety_pos)
  rw [harg]
  rw [show (0 : ℝ) * (180 / Real.pi) = 0 by ring]
  exact rmod_180

/-- C3 (amended): on the five-ping trace `(0,0),(0,90),(0,0),(-90,0),(0,0)`
the per-ping tangent-bearing computation returns `270°, 90°, 0°, 180°, 180°`
(the last element replicating the previous one), matching the repository's
own test: the code feeds degree coordinates into radian trigonometric
functions and adds 180° before normalizing to `[0, 360)`, so the values are
not the standard great-circle bearings. -/
theorem claim_C3_bearing_values :
    bearing_for_gps [(0, 0), (0, 90), (0, 0), (-90, 0), (0, 0)]
      = [270, 90, 0, 180, 180] := by
  unfold bearing_for_gps
  dsimp only [List.tail, List.zipWith]
  rw [vlb_pair1, vlb_pair2, vlb_pair3, vlb_pair4]
  simp [List.getLastD]

/-- C3 (counterexample): the computation does not return the claimed values
`90°, 270°, 180°, 0°, 0°` — already the first bearing is 270, not 90. -/
theorem claim_C3_counterexample :
    bearing_for_gps [(0, 0), (0, 90), (0, 0), (-90, 0), (0, 0)]
      ≠ [90, 270, 180, 0, 0] := by
  unfold bearing_for_gps
  dsimp only [List.tail, List.zipWith]
  rw [vlb_pair1, vlb_pair2, vlb_pair3, vlb_pair4]
  simp [List.getLastD]

end Mapmatcher

